import Mathlib

/-!
Verification of the finite-field and IDPF core (`poc/field.py`, `poc/idpf.py`).

Field elements are Sage `GF(p)` values stored in canonical form, i.e. natural
numbers `< p`; every arithmetic operation reduces modulo the prime `MODULUS`.
We embed them as `ℕ` with an explicit `% p` in each operation.  Byte strings
are `List ℕ` with entries `< 256`.  Fallible Python code (raising `ValueError`,
`AssertionError` or `IndexError`) is embedded with `Option`.

The file is laid out as: all definitions first, then all theorems.
-/

set_option maxRecDepth 100000

/-! ## Definitions -/

/-- Fast modular exponentiation by squaring, with explicit fuel so that the
recursion is structural and kernel-reducible.  `powModF f p a n = a ^ n % p`
whenever `n < 2 ^ f` (proved below). -/
def powModF : Nat → Nat → Nat → Nat → Nat
  | 0, p, _, _ => 1 % p
  | fuel+1, p, a, n =>
    if n = 0 then 1 % p
    else
      let r := powModF fuel p (a * a % p) (n / 2)
      if n % 2 = 0 then r else a % p * r % p

/-- Modular exponentiation `a ^ n % p`; the fuel `n + 1` always suffices. -/
def powMod (p a n : Nat) : Nat := powModF (n + 1) p a n

/-- `Field2.MODULUS`. -/
def Field2.MODULUS : ℕ := 2

/-- `Field2.ENCODED_SIZE`. -/
def Field2.ENCODED_SIZE : ℕ := 1

/-- `Field64.MODULUS = 2^32 * 4294967295 + 1`. -/
def Field64.MODULUS : ℕ := 2^32 * 4294967295 + 1

/-- `Field64.GEN_ORDER = 2^32`. -/
def Field64.GEN_ORDER : ℕ := 2^32

/-- `Field64.ENCODED_SIZE`. -/
def Field64.ENCODED_SIZE : ℕ := 8

/-- `Field96.MODULUS = 2^64 * 4294966555 + 1`. -/
def Field96.MODULUS : ℕ := 2^64 * 4294966555 + 1

/-- `Field96.GEN_ORDER = 2^64`. -/
def Field96.GEN_ORDER : ℕ := 2^64

/-- `Field96.ENCODED_SIZE`. -/
def Field96.ENCODED_SIZE : ℕ := 12

/-- `Field128.MODULUS = 2^66 * 4611686018427387897 + 1`. -/
def Field128.MODULUS : ℕ := 2^66 * 4611686018427387897 + 1

/-- `Field128.GEN_ORDER = 2^66`. -/
def Field128.GEN_ORDER : ℕ := 2^66

/-- `Field128.ENCODED_SIZE`. -/
def Field128.ENCODED_SIZE : ℕ := 16

/-- `Field255.MODULUS = 2^255 - 19`. -/
def Field255.MODULUS : ℕ := 2^255 - 19

/-- `Field255.ENCODED_SIZE`. -/
def Field255.ENCODED_SIZE : ℕ := 32

/-- The concrete subclasses of `Field` defined in `poc/field.py`. -/
inductive ConcreteField where
  | F2
  | F64
  | F96
  | F128
  | F255
deriving DecidableEq

/-- `MODULUS` of each concrete field class. -/
def MODULUS : ConcreteField → ℕ
  | .F2 => Field2.MODULUS
  | .F64 => Field64.MODULUS
  | .F96 => Field96.MODULUS
  | .F128 => Field128.MODULUS
  | .F255 => Field255.MODULUS

/-- `ENCODED_SIZE` of each concrete field class. -/
def ENCODED_SIZE : ConcreteField → ℕ
  | .F2 => Field2.ENCODED_SIZE
  | .F64 => Field64.ENCODED_SIZE
  | .F96 => Field96.ENCODED_SIZE
  | .F128 => Field128.ENCODED_SIZE
  | .F255 => Field255.ENCODED_SIZE

/-- `Field.__add__`: `self.val + other.val` in `GF(p)`. -/
def fadd (p a b : ℕ) : ℕ := (a + b) % p

/-- `Field.__neg__`: `-self.val` in `GF(p)`; for a canonical `a < p` this is
`(p - a) % p`. -/
def fneg (p a : ℕ) : ℕ := (p - a) % p

/-- `Field.__sub__`: `self + (-other)`. -/
def fsub (p a b : ℕ) : ℕ := fadd p a (fneg p b)

/-- `Field.__mul__`: `self.val * other.val` in `GF(p)`. -/
def fmul (p a b : ℕ) : ℕ := a * b % p

/-- `Field.__pow__`: `self.val ** n` in `GF(p)`, i.e. `a ^ n % p`, computed by
square-and-multiply so that concrete instances evaluate. -/
def fpow (p a n : ℕ) : ℕ := powMod p a n

/-- `Field.inv`: `self.val ** -1` in `GF(p)`.  For the prime `p` of every
concrete field class and nonzero `a` the Sage inverse is `a ^ (p - 2) % p`
(Fermat); the zero element is an unchecked precondition violation (Sage
raises) and is never inverted by the code under verification. -/
def finv (p a : ℕ) : ℕ := powMod p a (p - 2)

/-- `Field64.gen()`: `Field64(7) ** 4294967295`. -/
def Field64.gen : ℕ := fpow Field64.MODULUS 7 4294967295

/-- `Field96.gen()`: `Field96(3) ** 4294966555`. -/
def Field96.gen : ℕ := fpow Field96.MODULUS 3 4294966555

/-- `Field128.gen()`: `Field128(7) ** 4611686018427387897`. -/
def Field128.gen : ℕ := fpow Field128.MODULUS 7 4611686018427387897

/-- `Idpf.is_prefix(x, y, level)`: the code returns
`y >> (self.BITS - 1 - level) == x`. -/
def is_prefix (BITS x y level : ℕ) : Bool := y >>> (BITS - 1 - level) == x

/-- Result of `Idpf.current_field`: either the inner-node field class
`self.field_inner` or the leaf-node field class `self.field_leaf`. -/
inductive FieldKind where
  | inner
  | leaf
deriving DecidableEq

/-- `Idpf.current_field(level)`: `field_inner` if `level < BITS - 1`,
else `field_leaf`. -/
def current_field (BITS level : ℕ) : FieldKind :=
  if level < BITS - 1 then .inner else .leaf

/-- Top `k` bits of the `n`-bit representation of `y` (the spec's notion of a
length-`k` prefix of an `n`-bit index). -/
def topBits (n k y : ℕ) : ℕ := y >>> (n - k)

/-- Low `k` bits of `x`. -/
def lowBits (k x : ℕ) : ℕ := x % 2 ^ k

/-- Modelled from the spec: `to_le_bytes(val, length)` of `common.py` (file
missing from the sources); the spec fixes canonical encodings as fixed-width
little-endian, so the value is written as `length` bytes, least-significant
byte first. -/
def to_le_bytes : ℕ → ℕ → List ℕ
  | _, 0 => []
  | n, s+1 => n % 256 :: to_le_bytes (n / 256) s

/-- Modelled from the spec: `from_le_bytes(encoded)` of `common.py` (file
missing from the sources); parses a little-endian byte string. -/
def from_le_bytes : List ℕ → ℕ
  | [] => 0
  | b :: bs => b + 256 * from_le_bytes bs

/-- `Field.encode_vec(vec)`: the concatenation of the `ENCODED_SIZE`-byte
little-endian encodings of the elements. -/
def encode_vec (L : ℕ) (vec : List ℕ) : List ℕ :=
  (vec.map fun x => to_le_bytes x L).flatten

/-- The loop of `Field.decode_vec`: decode `L` bytes at a time; the
`ValueError('modulus overflow')` on a chunk `≥ MODULUS` becomes `none`.
The fuel argument only bounds the recursion; `encoded.length` suffices. -/
def decode_chunks (p L : ℕ) : ℕ → List ℕ → Option (List ℕ)
  | _, [] => some []
  | 0, _ :: _ => none
  | f+1, b :: bs =>
    let x := from_le_bytes ((b :: bs).take L)
    if p ≤ x then none
    else
      match decode_chunks p L f ((b :: bs).drop L) with
      | none => none
      | some v => some (x :: v)

/-- `Field.decode_vec(encoded)`: `ValueError` (as `none`) if the length is not
a multiple of `ENCODED_SIZE`, else the chunk-by-chunk decoding. -/
def decode_vec (p L : ℕ) (encoded : List ℕ) : Option (List ℕ) :=
  if encoded.length % L = 0 then decode_chunks p L encoded.length encoded
  else none

/-- `Field.encode_into_bit_vector(val, bits)`: `ValueError` (as `none`) when
`val ≥ 2 ** bits`, else the list of the low `bits` bits of `val`,
least-significant first (the constructed elements `(val >> l) & 1` are `0` or
`1`, so the constructor's `val < MODULUS` assertion always holds). -/
def encode_into_bit_vector (val bits : ℕ) : Option (List ℕ) :=
  if 2 ^ bits ≤ val then none
  else some ((List.range bits).map fun l => (val >>> l) &&& 1)

/-- `Field.decode_from_bit_vector(vec)`: `ValueError` (as `none`) when
`MODULUS >> len(vec) == 0`, else `Σ_l 2^l · vec[l]` accumulated with field
operations.  (Under the guard, `1 << l < MODULUS` for every `l < len(vec)`,
so the `cls(1 << l)` constructor assertion always holds.) -/
def decode_from_bit_vector (p : ℕ) (vec : List ℕ) : Option ℕ :=
  if p >>> vec.length = 0 then none
  else some (vec.enum.foldl (fun acc lb => fadd p acc (fmul p (1 <<< lb.1) lb.2)) 0)

/-- `Field2.conditional_select(inp)`: spread the element's value over all 8
bit positions of a byte mask, then AND the mask onto every input byte. -/
def conditional_select (v : ℕ) (inp : List ℕ) : List ℕ :=
  let m := (List.range 8).foldl (fun m i => m ||| (v <<< i)) 0
  inp.map fun x => m &&& x

/-- Specification helper for the bit-vector codec:
`bitSum k [b_0, ..., b_{m-1}] = Σ_l 2^(k+l) · b_l`. -/
def bitSum : ℕ → List ℕ → ℕ
  | _, [] => 0
  | k, b :: bs => 2 ^ k * b + bitSum (k + 1) bs

/-- The loop of `poly_strip(field, p)` run on the reversed coefficient list:
Python scans from the highest index down and keeps everything from the first
nonzero coefficient on. -/
def strip_rev : List ℕ → List ℕ
  | [] => []
  | c :: cs => if c ≠ 0 then c :: cs else strip_rev cs

/-- `poly_strip(field, p)`: remove trailing (highest-degree) zero
coefficients; the comparison `p[i] != field(0)` is equality of canonical
values. -/
def poly_strip (q : List ℕ) : List ℕ := (strip_rev q.reverse).reverse

/-- `poly_eval(field, p, eval_at)`: `field(0)` for an empty list, else Horner
evaluation of the stripped polynomial starting from `p[-1]`; indexing `p[-1]`
of an empty stripped list raises `IndexError` (`none`). -/
def poly_eval (p : ℕ) (q : List ℕ) (x : ℕ) : Option ℕ :=
  match q with
  | [] => some 0
  | _ :: _ =>
    let s := poly_strip q
    match s.getLast? with
    | none => none
    | some last =>
      some ((s.dropLast.reverse).foldl (fun r c => fadd p (fmul p r x) c) last)

/-- Specification helper (the spec's words): Horner evaluation, high-to-low,
of a low-degree-first coefficient list. -/
def hornerEval (p : ℕ) : List ℕ → ℕ → ℕ
  | [], _ => 0
  | c :: cs, x => (hornerEval p cs x * x + c) % p

/-- Dense polynomial addition over `GF(p)` (low-degree-first), used to model
Sage's polynomial arithmetic. -/
def poly_add (p : ℕ) : List ℕ → List ℕ → List ℕ
  | [], b => b
  | a, [] => a
  | c :: cs, d :: ds => fadd p c d :: poly_add p cs ds

/-- Scale a dense polynomial by a field element (models Sage). -/
def poly_scale (p c : ℕ) (a : List ℕ) : List ℕ := a.map (fmul p c)

/-- Dense polynomial multiplication over `GF(p)` (models Sage). -/
def poly_mulS (p : ℕ) : List ℕ → List ℕ → List ℕ
  | [], _ => []
  | c :: cs, b => poly_add p (poly_scale p c b) (0 :: poly_mulS p cs b)

/-- Model of Sage's `R.lagrange_polynomial(points)`: the dense,
low-degree-first, trailing-zero-free coefficient list of the unique
interpolating polynomial, computed by the classical Lagrange formula
`Σ_i y_i · Π_{j ≠ i} (x - x_j) / (x_i - x_j)`. -/
def lagrange_polynomial (p : ℕ) (pts : List (ℕ × ℕ)) : List ℕ :=
  poly_strip
    ((pts.enum.map fun ixy =>
      let others := (pts.eraseIdx ixy.1).map Prod.fst
      let num := others.foldl (fun acc xj => poly_mulS p acc [fneg p xj, 1]) [1]
      let den := others.foldl (fun acc xj => fmul p acc (fsub p ixy.2.1 xj)) 1
      poly_scale p (fmul p ixy.2.2 (finv p den)) num).foldl (poly_add p) [])

/-- Model of Sage's `Polynomial.coefficients()` with its default
`sparse=True`: only the NONZERO coefficients, in increasing order of degree —
zero coefficients of intermediate degrees are dropped from the list. -/
def sage_coefficients (q : List ℕ) : List ℕ := q.filter (fun c => c != 0)

/-- `poly_interp(field, xs, ys)`: the code builds the Sage Lagrange
polynomial of the zipped points, maps `field` over `p.coefficients()` and
strips. -/
def poly_interp (p : ℕ) (xs ys : List ℕ) : List ℕ :=
  poly_strip (sage_coefficients (lagrange_polynomial p (xs.zip ys)))

/-! ## Theorems -/

theorem powModF_eq (p : ℕ) (hp : 0 < p) :
    ∀ f a n : ℕ, n < 2 ^ f → powModF f p a n = a ^ n % p := by
  clear hp
  intro f
  induction f with
  | zero =>
    intro a n hn
    have hn0 : n = 0 := by simpa using Nat.lt_one_iff.mp (by simpa using hn)
    subst hn0
    simp [powModF]
  | succ f ih =>
    intro a n hn
    by_cases h0 : n = 0
    · subst h0; simp [powModF]
    · have h2 : (2:ℕ) ^ (f + 1) = 2 * 2 ^ f := by ring
      have hhalf : n / 2 < 2 ^ f := by
        rw [h2] at hn; omega
      have hr := ih (a * a % p) (n / 2) hhalf
      rw [powModF]
      simp only [h0, if_false]
      rw [hr, ← Nat.pow_mod, ← sq, ← pow_mul]
      by_cases hpar : n % 2 = 0
      · have hne : 2 * (n / 2) = n := by omega
        simp [hpar, hne]
      · have hne : 2 * (n / 2) + 1 = n := by omega
        simp only [hpar, if_false]
        rw [← Nat.mul_mod, ← pow_succ', hne]

theorem powMod_eq (p a n : ℕ) (hp : 0 < p) : powMod p a n = a ^ n % p :=
  powModF_eq p hp (n + 1) a n (Nat.lt_of_lt_of_le (Nat.lt_two_pow n)
    (Nat.pow_le_pow_right (by omega) (Nat.le_succ n)))

theorem fpow_eq (p a n : ℕ) (hp : 0 < p) : fpow p a n = a ^ n % p :=
  powMod_eq p a n hp

theorem to_le_bytes_length : ∀ (s n : ℕ), (to_le_bytes n s).length = s := by
  intro s
  induction s with
  | zero => intro n; rfl
  | succ s ih => intro n; simp [to_le_bytes, ih]

theorem from_le_to_le_bytes : ∀ (s n : ℕ), n < 256 ^ s →
    from_le_bytes (to_le_bytes n s) = n := by
  intro s
  induction s with
  | zero =>
    intro n hn
    have : n = 0 := by simpa using Nat.lt_one_iff.mp (by simpa using hn)
    subst this; rfl
  | succ s ih =>
    intro n hn
    have hdiv : n / 256 < 256 ^ s := by
      rw [pow_succ] at hn
      exact Nat.div_lt_of_lt_mul (by omega)
    simp only [to_le_bytes, from_le_bytes, ih _ hdiv]
    omega

theorem to_le_from_le_bytes : ∀ c : List ℕ, (∀ x ∈ c, x < 256) →
    to_le_bytes (from_le_bytes c) c.length = c := by
  intro c
  induction c with
  | nil => intro _; rfl
  | cons b bs ih =>
    intro h
    have hb : b < 256 := h b (by simp)
    simp only [from_le_bytes, List.length_cons, to_le_bytes]
    have h1 : (b + 256 * from_le_bytes bs) % 256 = b := by
      rw [Nat.mul_comm, Nat.add_mul_mod_self_right, Nat.mod_eq_of_lt hb]
    have h2 : (b + 256 * from_le_bytes bs) / 256 = from_le_bytes bs := by
      rw [Nat.add_mul_div_left _ _ (by omega : (0:ℕ) < 256), Nat.div_eq_of_lt hb,
        Nat.zero_add]
    rw [h1, h2, ih (fun x hx => h x (by simp [hx]))]

theorem encode_vec_cons (L x : ℕ) (v : List ℕ) :
    encode_vec L (x :: v) = to_le_bytes x L ++ encode_vec L v := by
  simp [encode_vec]

theorem encode_vec_length (L : ℕ) : ∀ v : List ℕ,
    (encode_vec L v).length = L * v.length := by
  intro v
  induction v with
  | nil => simp [encode_vec]
  | cons x v ih =>
    rw [encode_vec_cons, List.length_append, to_le_bytes_length, ih,
      List.length_cons]
    ring

theorem decode_chunks_nil (p L f : ℕ) : decode_chunks p L f [] = some [] := by
  cases f <;> rfl

theorem decode_chunks_ne_nil (p L f : ℕ) (bs : List ℕ) (h : bs ≠ []) :
    decode_chunks p L (f+1) bs =
      if p ≤ from_le_bytes (bs.take L) then none
      else
        match decode_chunks p L f (bs.drop L) with
        | none => none
        | some v => some (from_le_bytes (bs.take L) :: v) := by
  cases bs with
  | nil => exact absurd rfl h
  | cons b bs => rfl

theorem decode_chunks_encode (p L : ℕ) (hL : 0 < L) (hpL : p ≤ 256 ^ L) :
    ∀ (v : List ℕ) (f : ℕ), (encode_vec L v).length ≤ f → (∀ x ∈ v, x < p) →
      decode_chunks p L f (encode_vec L v) = some v := by
  intro v
  induction v with
  | nil =>
    intro f _ _
    simpa [encode_vec] using decode_chunks_nil p L f
  | cons x v ih =>
    intro f hf hx
    have hxp : x < p := hx x (by simp)
    have hx256 : x < 256 ^ L := lt_of_lt_of_le hxp hpL
    have hlen : (encode_vec L (x :: v)).length = L * v.length + L := by
      rw [encode_vec_length, List.length_cons]; ring
    obtain ⟨f', rfl⟩ : ∃ f', f = f' + 1 := by
      cases f with
      | zero => exfalso; omega
      | succ f' => exact ⟨f', rfl⟩
    have hne : encode_vec L (x :: v) ≠ [] := by
      intro hemp
      rw [hemp] at hlen
      simp at hlen
      omega
    rw [decode_chunks_ne_nil p L f' _ hne, encode_vec_cons,
      List.take_left' (to_le_bytes_length L x),
      List.drop_left' (to_le_bytes_length L x),
      from_le_to_le_bytes L x hx256, if_neg (by omega),
      ih f' (by rw [encode_vec_length]; omega) (fun y hy => hx y (by simp [hy]))]

theorem decode_chunks_roundtrip (p L : ℕ) (hL : 0 < L) :
    ∀ (f : ℕ) (bs : List ℕ), bs.length ≤ f → L ∣ bs.length →
      (∀ x ∈ bs, x < 256) →
      (∀ i, i < bs.length / L → from_le_bytes ((bs.drop (L * i)).take L) < p) →
      ∃ w, decode_chunks p L f bs = some w ∧ encode_vec L w = bs := by
  intro f
  induction f with
  | zero =>
    intro bs hf _ _ _
    have hnil : bs = [] := List.eq_nil_of_length_eq_zero (by omega)
    subst hnil
    exact ⟨[], decode_chunks_nil p L 0, by simp [encode_vec]⟩
  | succ f ih =>
    intro bs hf hdvd hbyte hchunk
    rcases eq_or_ne bs [] with rfl | hne
    · exact ⟨[], decode_chunks_nil p L (f+1), by simp [encode_vec]⟩
    · obtain ⟨k, hk⟩ := hdvd
      have hpos : 0 < bs.length := List.length_pos.mpr hne
      obtain ⟨k', rfl⟩ : ∃ k', k = k' + 1 := by
        cases k with
        | zero => exfalso; omega
        | succ k' => exact ⟨k', rfl⟩
      have hexp : L * (k' + 1) = L * k' + L := by ring
      have hlenL : L ≤ bs.length := by omega
      have hdivk : bs.length / L = k' + 1 := by
        rw [hk, Nat.mul_div_cancel_left _ hL]
      have hx : from_le_bytes (bs.take L) < p := by
        have h0 := hchunk 0 (by omega)
        simpa using h0
      have hdroplen : (bs.drop L).length = L * k' := by
        rw [List.length_drop]; omega
      obtain ⟨w', hdec, henc⟩ := ih (bs.drop L) (by rw [List.length_drop]; omega)
        ⟨k', hdroplen⟩
        (fun x hx => hbyte x (List.drop_subset L bs hx))
        (by
          intro i hi
          rw [hdroplen, Nat.mul_div_cancel_left _ hL] at hi
          have htail := hchunk (i + 1) (by omega)
          rw [List.drop_drop]
          have harith : L + L * i = L * (i + 1) := by ring
          rw [harith]
          exact htail)
      refine ⟨from_le_bytes (bs.take L) :: w', ?_, ?_⟩
      · rw [decode_chunks_ne_nil p L f bs hne, if_neg (by omega), hdec]
      · have htl : to_le_bytes (from_le_bytes (bs.take L)) L = bs.take L := by
          have h := to_le_from_le_bytes (bs.take L)
            (fun x hx => hbyte x (List.take_subset L bs hx))
          rwa [List.length_take, min_eq_left hlenL] at h
        rw [encode_vec_cons, htl, henc, List.take_append_drop]

theorem decode_chunks_some_length (p L : ℕ) (hL : 0 < L) :
    ∀ (f : ℕ) (bs w : List ℕ), L ∣ bs.length →
      decode_chunks p L f bs = some w → w.length = bs.length / L := by
  intro f
  induction f with
  | zero =>
    intro bs w hdvd hdec
    cases bs with
    | nil =>
      rw [decode_chunks_nil] at hdec
      cases hdec
      simp
    | cons b bs =>
      exact absurd hdec (by
        rw [show decode_chunks p L 0 (b :: bs) = none from rfl]; simp)
  | succ f ih =>
    intro bs w hdvd hdec
    rcases eq_or_ne bs [] with rfl | hne
    · rw [decode_chunks_nil] at hdec
      cases hdec
      simp
    · obtain ⟨k, hk⟩ := hdvd
      have hpos : 0 < bs.length := List.length_pos.mpr hne
      obtain ⟨k', rfl⟩ : ∃ k', k = k' + 1 := by
        cases k with
        | zero => exfalso; omega
        | succ k' => exact ⟨k', rfl⟩
      have hexp : L * (k' + 1) = L * k' + L := by ring
      have hdivk : bs.length / L = k' + 1 := by
        rw [hk, Nat.mul_div_cancel_left _ hL]
      rw [decode_chunks_ne_nil p L f bs hne] at hdec
      by_cases hx : p ≤ from_le_bytes (bs.take L)
      · rw [if_pos hx] at hdec; cases hdec
      · rw [if_neg hx] at hdec
        have hdroplen : (bs.drop L).length = L * k' := by
          rw [List.length_drop]; omega
        rcases hrec : decode_chunks p L f (bs.drop L) with _ | w'
        · rw [hrec] at hdec; cases hdec
        · rw [hrec] at hdec
          cases hdec
          have hlen' := ih (bs.drop L) w' ⟨k', hdroplen⟩ hrec
          rw [hdroplen, Nat.mul_div_cancel_left _ hL] at hlen'
          simp [hlen', hdivk]

theorem decode_chunks_none_iff (p L : ℕ) (hL : 0 < L) :
    ∀ (f : ℕ) (bs : List ℕ), bs.length ≤ f → L ∣ bs.length →
      (decode_chunks p L f bs = none ↔
        ∃ i, i < bs.length / L ∧ p ≤ from_le_bytes ((bs.drop (L * i)).take L)) := by
  intro f
  induction f with
  | zero =>
    intro bs hf _
    have hnil : bs = [] := List.eq_nil_of_length_eq_zero (by omega)
    subst hnil
    rw [decode_chunks_nil]
    simp
  | succ f ih =>
    intro bs hf hdvd
    rcases eq_or_ne bs [] with rfl | hne
    · rw [decode_chunks_nil]; simp
    · obtain ⟨k, hk⟩ := hdvd
      have hpos : 0 < bs.length := List.length_pos.mpr hne
      obtain ⟨k', rfl⟩ : ∃ k', k = k' + 1 := by
        cases k with
        | zero => exfalso; omega
        | succ k' => exact ⟨k', rfl⟩
      have hexp : L * (k' + 1) = L * k' + L := by ring
      have hdivk : bs.length / L = k' + 1 := by
        rw [hk, Nat.mul_div_cancel_left _ hL]
      have hdroplen : (bs.drop L).length = L * k' := by
        rw [List.length_drop]; omega
      have hdropdiv : (bs.drop L).length / L = k' := by
        rw [hdroplen, Nat.mul_div_cancel_left _ hL]
      rw [decode_chunks_ne_nil p L f bs hne]
      have hshift : ∀ i, ((bs.drop L).drop (L * i)).take L
          = (bs.drop (L * (i + 1))).take L := by
        intro i
        rw [List.drop_drop]
        have harith : L + L * i = L * (i + 1) := by ring
        rw [harith]
      by_cases hx : p ≤ from_le_bytes (bs.take L)
      · rw [if_pos hx]
        exact iff_of_true rfl ⟨0, by omega, by simpa using hx⟩
      · rw [if_neg hx]
        have hrec := ih (bs.drop L) (by rw [List.length_drop]; omega)
          ⟨k', hdroplen⟩
        rw [hdropdiv] at hrec
        rcases hdec : decode_chunks p L f (bs.drop L) with _ | w'
        · refine iff_of_true rfl ?_
          obtain ⟨i, hi, hge⟩ := hrec.mp hdec
          refine ⟨i + 1, by omega, ?_⟩
          rw [← hshift]
          exact hge
        · refine iff_of_false (by simp) ?_
          rintro ⟨i, hi, hge⟩
          cases i with
          | zero =>
            simp only [Nat.mul_zero, List.drop_zero] at hge
            omega
          | succ j =>
            have hcontra : decode_chunks p L f (bs.drop L) = none := by
              apply hrec.mpr
              refine ⟨j, by omega, ?_⟩
              rw [hshift]
              exact hge
            rw [hdec] at hcontra
            cases hcontra

/-- C1 counterexample: with `BITS = 4` the claim asserts `is_prefix(2, 10, 2)`
is true (the top 2 bits of `0b1010` are `0b10`), but the code compares
`10 >> (4 - 1 - 2) = 5` with `2` and returns false. -/
theorem is_prefix_claim_counterexample :
    is_prefix 4 2 10 2 = false ∧ topBits 4 2 10 = lowBits 2 2 := by decide

/-- C1 (amended): for `level ∈ [0, BITS)`, `y < 2^BITS` and
`x < 2^(level+1)`, `is_prefix(x, y, level)` returns true iff the top
`level + 1` bits of the `BITS`-bit representation of `y` equal the low
`level + 1` bits of `x`; in particular, with `BITS = 4`,
`is_prefix(5, 10, 2)` is true while `is_prefix(2, 10, 2)` is false. -/
theorem is_prefix_amended (BITS x y level : ℕ) (hlevel : level < BITS)
    (hy : y < 2 ^ BITS) (hx : x < 2 ^ (level + 1)) :
    is_prefix BITS x y level = true ↔
      topBits BITS (level + 1) y = lowBits (level + 1) x := by
  clear hy
  unfold is_prefix topBits lowBits
  rw [Nat.mod_eq_of_lt hx]
  have hsub : BITS - 1 - level = BITS - (level + 1) := by omega
  rw [hsub, beq_iff_eq]

/-- C1 witness: the amended statement at `BITS = 4`, `x = 5`, `y = 10`,
`level = 2`. -/
theorem is_prefix_amended_witness :
    (2 < 4 ∧ 10 < 2 ^ 4 ∧ 5 < 2 ^ 3) ∧
      ( is_prefix 4 5 10 2 = true ↔ topBits 4 3 10 = lowBits 3 5) :=
  ⟨by decide, is_prefix_amended 4 5 10 2 (by decide) (by decide) (by decide)⟩

/-- C10: for every `level ∈ [0, BITS)`, `current_field(level)` returns the
leaf field exactly when `level = BITS - 1` and the inner field otherwise. -/
theorem current_field_boundary (BITS level : ℕ) (h : level < BITS) :
    current_field BITS level =
      if level = BITS - 1 then FieldKind.leaf else FieldKind.inner := by
  unfold current_field
  by_cases he : level = BITS - 1
  · simp [he]
  · have hlt : level < BITS - 1 := by omega
    simp [he, hlt]

/-- C10 witness: `BITS = 4` with `level = 3` (leaf) evaluated concretely. -/
theorem current_field_boundary_witness :
    3 < 4 ∧ current_field 4 3 =
      (if 3 = 4 - 1 then FieldKind.leaf else FieldKind.inner) :=
  ⟨by decide, current_field_boundary 4 3 (by decide)⟩

/-- C8: `conditional_select` preserves the input length; with element value 1
it returns the input unchanged (for every byte string), and with element
value 0 it returns the all-zero string of the same length. -/
theorem conditional_select_spec (v : ℕ) (inp : List ℕ) (hv : v < 2)
    (hinp : ∀ x ∈ inp, x < 256) :
    (conditional_select v inp).length = inp.length ∧
      (v = 1 → conditional_select v inp = inp) ∧
      (v = 0 → conditional_select v inp = List.replicate inp.length 0) := by
  refine ⟨List.length_map _ _, fun h1 => ?_, fun h0 => ?_⟩
  · subst h1
    unfold conditional_select
    have hm : (List.range 8).foldl (fun m i => m ||| (1 <<< i)) 0 = 255 := by decide
    rw [hm]
    conv_rhs => rw [← List.map_id inp]
    apply List.map_congr_left
    intro x hx
    rw [Nat.and_comm, show (255:ℕ) = 2 ^ 8 - 1 from rfl,
      Nat.and_pow_two_sub_one_eq_mod]
    exact Nat.mod_eq_of_lt (hinp x hx)
  · subst h0
    unfold conditional_select
    have hm : (List.range 8).foldl (fun m i => m ||| (0 <<< i)) 0 = 0 := by decide
    rw [hm]
    simp [List.eq_replicate_iff]

/-- C8 witness: element value 1 with an input containing a `0x00` and a `0xFF`
byte, evaluated concretely. -/
theorem conditional_select_spec_witness :
    (1 < 2 ∧ ∀ x ∈ [0, 255], x < 256) ∧
      ((conditional_select 1 [0, 255]).length = 2 ∧
        (1 = 1 → conditional_select 1 [0, 255] = [0, 255]) ∧
        (1 = 0 → conditional_select 1 [0, 255] = List.replicate 2 0)) :=
  ⟨by decide, conditional_select_spec 1 [0, 255] (by decide) (by decide)⟩

theorem ENCODED_SIZE_pos (F : ConcreteField) : 0 < ENCODED_SIZE F := by
  cases F <;> decide

theorem MODULUS_le_byte_pow (F : ConcreteField) :
    MODULUS F ≤ 256 ^ ENCODED_SIZE F := by
  cases F <;> decide

theorem MODULUS_two_le (F : ConcreteField) : 2 ≤ MODULUS F := by
  cases F <;> decide

/-- C4: for every concrete field class, `decode_vec(encode_vec(v)) == v` for
every vector `v` of canonical elements; and `encode_vec(decode_vec(b)) == b`
for every byte string `b` whose length is a multiple of `ENCODED_SIZE` and
whose `ENCODED_SIZE`-byte little-endian chunks all decode below `MODULUS`. -/
theorem vec_codec_roundtrip (F : ConcreteField) (v b : List ℕ)
    (hv : ∀ x ∈ v, x < MODULUS F)
    (hlen : b.length % ENCODED_SIZE F = 0)
    (hbyte : ∀ x ∈ b, x < 256)
    (hchunks : ∀ i, i < b.length / ENCODED_SIZE F →
      from_le_bytes ((b.drop (ENCODED_SIZE F * i)).take (ENCODED_SIZE F))
        < MODULUS F) :
    decode_vec (MODULUS F) (ENCODED_SIZE F) (encode_vec (ENCODED_SIZE F) v)
        = some v ∧
      (decode_vec (MODULUS F) (ENCODED_SIZE F) b).map (encode_vec (ENCODED_SIZE F))
        = some b := by
  have hL := ENCODED_SIZE_pos F
  have hpL := MODULUS_le_byte_pow F
  constructor
  · unfold decode_vec
    rw [encode_vec_length, if_pos (Nat.mul_mod_right _ _)]
    exact decode_chunks_encode _ _ hL hpL v _ (by rw [encode_vec_length]) hv
  · unfold decode_vec
    rw [if_pos hlen]
    obtain ⟨w, hdec, henc⟩ := decode_chunks_roundtrip _ _ hL b.length b le_rfl
      (Nat.dvd_iff_mod_eq_zero.mpr hlen) hbyte hchunks
    rw [hdec]
    simp [henc]

/-- C4 witness: `Field2` with `v = [1, 0]` and `b = [1, 0]`. -/
theorem vec_codec_roundtrip_witness :
    ((∀ x ∈ [1, 0], x < MODULUS ConcreteField.F2) ∧
      ([1, 0] : List ℕ).length % ENCODED_SIZE ConcreteField.F2 = 0 ∧
      (∀ x ∈ [1, 0], x < 256) ∧
      (∀ i, i < ([1, 0] : List ℕ).length / ENCODED_SIZE ConcreteField.F2 →
        from_le_bytes ((([1, 0] : List ℕ).drop (ENCODED_SIZE ConcreteField.F2 * i)).take
          (ENCODED_SIZE ConcreteField.F2)) < MODULUS ConcreteField.F2)) ∧
      (decode_vec (MODULUS ConcreteField.F2) (ENCODED_SIZE ConcreteField.F2)
          (encode_vec (ENCODED_SIZE ConcreteField.F2) [1, 0]) = some [1, 0] ∧
        (decode_vec (MODULUS ConcreteField.F2) (ENCODED_SIZE ConcreteField.F2)
            [1, 0]).map (encode_vec (ENCODED_SIZE ConcreteField.F2)) = some [1, 0]) :=
  ⟨⟨by decide, by decide, by decide, by decide⟩,
    vec_codec_roundtrip ConcreteField.F2 [1, 0] [1, 0]
      (by decide) (by decide) (by decide) (by decide)⟩

/-- C5: for every concrete field class, `decode_vec(b)` fails exactly when the
length of `b` is not a multiple of `ENCODED_SIZE` or some `ENCODED_SIZE`-byte
chunk decodes (little-endian) to a value `≥ MODULUS`; on success it returns
`len(b) / ENCODED_SIZE` elements. -/
theorem decode_vec_spec (F : ConcreteField) (b : List ℕ) :
    (decode_vec (MODULUS F) (ENCODED_SIZE F) b = none ↔
      b.length % ENCODED_SIZE F ≠ 0 ∨
        ∃ i, i < b.length / ENCODED_SIZE F ∧
          MODULUS F ≤
            from_le_bytes ((b.drop (ENCODED_SIZE F * i)).take (ENCODED_SIZE F))) ∧
      ∀ w, decode_vec (MODULUS F) (ENCODED_SIZE F) b = some w →
        w.length = b.length / ENCODED_SIZE F := by
  have hL := ENCODED_SIZE_pos F
  unfold decode_vec
  by_cases hlen : b.length % ENCODED_SIZE F = 0
  · rw [if_pos hlen]
    have hdvd := Nat.dvd_iff_mod_eq_zero.mpr hlen
    constructor
    · rw [decode_chunks_none_iff _ _ hL b.length b le_rfl hdvd]
      simp [hlen]
    · intro w hw
      exact decode_chunks_some_length _ _ hL b.length b w hdvd hw
  · rw [if_neg hlen]
    constructor
    · simp [hlen]
    · intro w hw
      simp at hw

/-- C5 witness: `Field2` with the byte string `[7]` (one chunk, value `7 ≥ 2`,
so decoding fails on the modulus check). -/
theorem decode_vec_spec_witness :
    (decode_vec (MODULUS ConcreteField.F2) (ENCODED_SIZE ConcreteField.F2) [7]
        = none ↔
      ([7] : List ℕ).length % ENCODED_SIZE ConcreteField.F2 ≠ 0 ∨
        ∃ i, i < ([7] : List ℕ).length / ENCODED_SIZE ConcreteField.F2 ∧
          MODULUS ConcreteField.F2 ≤
            from_le_bytes ((([7] : List ℕ).drop (ENCODED_SIZE ConcreteField.F2 * i)).take
              (ENCODED_SIZE ConcreteField.F2))) ∧
      ∀ w, decode_vec (MODULUS ConcreteField.F2) (ENCODED_SIZE ConcreteField.F2) [7]
          = some w →
        w.length = ([7] : List ℕ).length / ENCODED_SIZE ConcreteField.F2 :=
  decode_vec_spec ConcreteField.F2 [7]

theorem bitSum_shift : ∀ (bs : List ℕ) (k : ℕ),
    bitSum k bs = 2 ^ k * bitSum 0 bs := by
  intro bs
  induction bs with
  | nil => intro k; simp [bitSum]
  | cons b bs ih =>
    intro k
    simp only [bitSum]
    rw [ih (k + 1), ih 1]
    ring

theorem bit_vector_value : ∀ (bits v : ℕ),
    bitSum 0 ((List.range bits).map fun l => (v >>> l) &&& 1) = v % 2 ^ bits := by
  intro bits
  induction bits with
  | zero => intro v; simp [bitSum, Nat.mod_one]
  | succ n ih =>
    intro v
    rw [List.range_succ_eq_map]
    simp only [List.map_cons, List.map_map]
    have hfun : ((fun l => (v >>> l) &&& 1) ∘ Nat.succ)
        = fun l => ((v / 2) >>> l) &&& 1 := by
      funext l
      simp only [Function.comp]
      have h1 : Nat.succ l = 1 + l := by omega
      rw [h1, Nat.shiftRight_add]
      have h2 : v >>> 1 = v / 2 := by
        rw [Nat.shiftRight_eq_div_pow, pow_one]
      rw [h2]
    rw [hfun, bitSum, bitSum_shift, ih (v / 2)]
    rw [Nat.shiftRight_zero, Nat.and_one_is_mod]
    have hsplit : v % 2 ^ (n + 1) = v % 2 + 2 * (v / 2 % 2 ^ n) := by
      rw [pow_succ']
      exact Nat.mod_mul
    rw [hsplit]
    simp [pow_zero, pow_one]

theorem decode_fold (p : ℕ) (hp : 0 < p) :
    ∀ (vec : List ℕ) (k a : ℕ), a < p →
      (List.enumFrom k vec).foldl
          (fun acc lb => fadd p acc (fmul p (1 <<< lb.1) lb.2)) a
        = (a + bitSum k vec) % p := by
  intro vec
  induction vec with
  | nil =>
    intro k a ha
    simp [bitSum, List.enumFrom, Nat.mod_eq_of_lt ha]
  | cons b bs ih =>
    intro k a ha
    rw [show List.enumFrom k (b :: bs) = (k, b) :: List.enumFrom (k + 1) bs from rfl,
      List.foldl_cons]
    have hstep : fadd p a (fmul p (1 <<< k) b) < p := Nat.mod_lt _ hp
    rw [ih (k + 1) _ hstep]
    unfold fadd fmul
    rw [Nat.shiftLeft_eq, one_mul, Nat.mod_add_mod, Nat.add_right_comm,
      Nat.add_mod_mod]
    have harr : a + bitSum (k + 1) bs + 2 ^ k * b
        = a + (2 ^ k * b + bitSum (k + 1) bs) := by ring
    rw [harr]
    rfl

/-- C6: for every concrete field class, every `bits` and every `v < 2^bits`
with `MODULUS > 2^bits`, `encode_into_bit_vector(v, bits)` succeeds and
returns exactly `bits` elements, the `l`-th being bit `l` of `v`
(least-significant first), and `decode_from_bit_vector` of that vector
returns `Field(v)`. -/
theorem bit_vector_roundtrip (F : ConcreteField) (v bits : ℕ)
    (hv : v < 2 ^ bits) (hM : 2 ^ bits < MODULUS F) :
    ∃ e, encode_into_bit_vector v bits = some e ∧ e.length = bits ∧
      (∀ l, l < bits → e[l]? = some (v / 2 ^ l % 2)) ∧
      decode_from_bit_vector (MODULUS F) e = some v := by
  have h1 : (1:ℕ) ≤ 2 ^ bits := Nat.one_le_two_pow
  have hp : 0 < MODULUS F := by omega
  refine ⟨(List.range bits).map fun l => (v >>> l) &&& 1, ?_, by simp, ?_, ?_⟩
  · unfold encode_into_bit_vector
    rw [if_neg (by omega)]
  · intro l hl
    simp only [List.getElem?_map, List.getElem?_range, hl, Option.map_some']
    rw [Nat.shiftRight_eq_div_pow, Nat.and_one_is_mod]
  · unfold decode_from_bit_vector
    have hlen : ((List.range bits).map fun l => (v >>> l) &&& 1).length = bits := by
      simp
    rw [hlen]
    have hguard : MODULUS F >>> bits ≠ 0 := by
      rw [Nat.shiftRight_eq_div_pow]
      have := Nat.div_pos (Nat.le_of_lt hM) (by omega : 0 < 2 ^ bits)
      omega
    rw [if_neg hguard]
    have hfold := decode_fold (MODULUS F) hp
      ((List.range bits).map fun l => (v >>> l) &&& 1) 0 0 hp
    have henum : ∀ l : List ℕ, l.enum = List.enumFrom 0 l := fun l => rfl
    rw [henum, hfold, Nat.zero_add, bit_vector_value, Nat.mod_eq_of_lt hv,
      Nat.mod_eq_of_lt (by omega)]

/-- C6 witness: `Field64` with `v = 5`, `bits = 3`. -/
theorem bit_vector_roundtrip_witness :
    (5 < 2 ^ 3 ∧ 2 ^ 3 < MODULUS ConcreteField.F64) ∧
      (∃ e, encode_into_bit_vector 5 3 = some e ∧ e.length = 3 ∧
        (∀ l, l < 3 → e[l]? = some (5 / 2 ^ l % 2)) ∧
        decode_from_bit_vector (MODULUS ConcreteField.F64) e = some 5) :=
  ⟨⟨by decide, by decide⟩,
    bit_vector_roundtrip ConcreteField.F64 5 3 (by decide) (by decide)⟩

theorem strip_rev_eq_nil_iff : ∀ l : List ℕ, strip_rev l = [] ↔ ∀ c ∈ l, c = 0 := by
  intro l
  induction l with
  | nil => simp [strip_rev]
  | cons c cs ih =>
    by_cases hc : c = 0
    · subst hc
      simp [strip_rev, ih]
    · simp [strip_rev, hc]

theorem strip_rev_subset : ∀ l : List ℕ, strip_rev l ⊆ l := by
  intro l
  induction l with
  | nil => simp [strip_rev]
  | cons c cs ih =>
    by_cases hc : c = 0
    · subst hc
      simp only [strip_rev, ne_eq, not_true_eq_false, if_false]
      exact ih.trans (List.subset_cons_self 0 cs)
    · simp [strip_rev, hc]

theorem poly_strip_eq_nil_iff (q : List ℕ) :
    poly_strip q = [] ↔ ∀ c ∈ q, c = 0 := by
  unfold poly_strip
  rw [List.reverse_eq_nil_iff, strip_rev_eq_nil_iff]
  constructor
  · intro h c hc; exact h c (List.mem_reverse.mpr hc)
  · intro h c hc; exact h c (List.mem_reverse.mp hc)

theorem poly_strip_subset (q : List ℕ) : poly_strip q ⊆ q := by
  unfold poly_strip
  intro c hc
  rw [List.mem_reverse] at hc
  exact List.mem_reverse.mp (strip_rev_subset q.reverse hc)

theorem poly_eval_cons (p h x : ℕ) (t : List ℕ) :
    poly_eval p (h :: t) x =
      match (poly_strip (h :: t)).getLast? with
      | none => none
      | some last => some (((poly_strip (h :: t)).dropLast.reverse).foldl
          (fun r c => fadd p (fmul p r x) c) last) := rfl

theorem code_horner (p x : ℕ) : ∀ s : List ℕ, (∀ c ∈ s, c < p) →
    ∀ l : ℕ, s.getLast? = some l →
      (s.dropLast.reverse).foldl (fun r c => fadd p (fmul p r x) c) l
        = hornerEval p s x := by
  intro s
  induction s with
  | nil => intro _ l hl; simp at hl
  | cons a t ih =>
    intro hcanon l hl
    cases t with
    | nil =>
      simp only [List.getLast?_singleton, Option.some_inj] at hl
      subst hl
      simp only [List.dropLast_single, List.reverse_nil, List.foldl_nil,
        hornerEval, Nat.zero_mul, Nat.zero_add]
      exact (Nat.mod_eq_of_lt (hcanon a (by simp))).symm
    | cons b u =>
      rw [List.getLast?_cons_cons] at hl
      have hrec := ih (fun c hc => hcanon c (by simp [hc])) l hl
      rw [List.dropLast_cons₂, List.reverse_cons, List.foldl_append,
        List.foldl_cons, List.foldl_nil, hrec]
      show fadd p (fmul p (hornerEval p (b :: u) x) x) a = hornerEval p (a :: b :: u) x
      rw [show hornerEval p (a :: b :: u) x
        = (hornerEval p (b :: u) x * x + a) % p from rfl]
      unfold fadd fmul
      rw [Nat.mod_add_mod]

/-- C3 counterexample: the claim asserts `poly_eval` terminates without error
on every coefficient list and returns the field zero on all-zero input, but
on the non-empty all-zero polynomial `[0]` the code strips to the empty list
and the indexing `p[-1]` raises `IndexError`. -/
theorem poly_eval_claim_counterexample :
    poly_eval Field64.MODULUS [0] 0 = none ∧
      poly_eval Field64.MODULUS [0] 0 ≠ some 0 := by decide

/-- C3 (amended): `poly_eval(field, p, x)` returns the field zero for the
empty polynomial and the Horner evaluation (high-to-low) of the stripped
polynomial whenever some coefficient is nonzero; on a NON-empty polynomial
whose coefficients are all zero it raises `IndexError` (the stripped list is
empty and `p[-1]` fails). -/
theorem poly_eval_amended (p : ℕ) (q : List ℕ) (x : ℕ)
    (hq : ∀ c ∈ q, c < p) :
    (q = [] → poly_eval p q x = some 0) ∧
      (q ≠ [] → (∀ c ∈ q, c = 0) → poly_eval p q x = none) ∧
      ((∃ c ∈ q, c ≠ 0) →
        poly_eval p q x = some (hornerEval p (poly_strip q) x)) := by
  refine ⟨fun h => by subst h; rfl, fun hne hzero => ?_, fun hex => ?_⟩
  · cases q with
    | nil => exact absurd rfl hne
    | cons h t =>
      rw [poly_eval_cons]
      have : poly_strip (h :: t) = [] := (poly_strip_eq_nil_iff _).mpr hzero
      rw [this]
      rfl
  · obtain ⟨c, hc, hcne⟩ := hex
    cases q with
    | nil => simp at hc
    | cons h t =>
      have hsne : poly_strip (h :: t) ≠ [] := by
        rw [ne_eq, poly_strip_eq_nil_iff]
        push_neg
        exact ⟨c, hc, hcne⟩
      rcases hlast : (poly_strip (h :: t)).getLast? with _ | l
      · exact absurd (List.getLast?_eq_none_iff.mp hlast) hsne
      · rw [poly_eval_cons, hlast]
        show some (((poly_strip (h :: t)).dropLast.reverse).foldl
            (fun r c => fadd p (fmul p r x) c) l)
          = some (hornerEval p (poly_strip (h :: t)) x)
        rw [code_horner p x (poly_strip (h :: t))
          (fun c hc => hq c (poly_strip_subset _ hc)) l hlast]

/-- C3 witness: the amended statement at `p = 2`, `q = [1, 0]`, `x = 1`,
a polynomial with a nonzero coefficient. -/
theorem poly_eval_amended_witness :
    (∀ c ∈ [1, 0], c < 2) ∧
      (([1, 0] : List ℕ) = [] → poly_eval 2 [1, 0] 1 = some 0) ∧
      (([1, 0] : List ℕ) ≠ [] → (∀ c ∈ [1, 0], c = 0) →
        poly_eval 2 [1, 0] 1 = none) ∧
      ((∃ c ∈ [1, 0], c ≠ 0) →
        poly_eval 2 [1, 0] 1 = some (hornerEval 2 (poly_strip [1, 0]) 1)) :=
  ⟨by decide, poly_eval_amended 2 [1, 0] 1 (by decide)⟩

/-- C2 (code bug): `poly_interp` maps the field constructor over Sage's
`p.coefficients()`, whose default `sparse=True` returns only the NONZERO
coefficients.  For the points `(0,1), (1,2), (2,5)` over `Field64` the
interpolating polynomial is `x^2 + 1` with dense coefficients `[1, 0, 1]`,
but the code returns `[1, 1]` (the polynomial `x + 1`), and evaluating it at
`xs[2] = 2` yields `3`, not `ys[2] = 5`. -/
theorem poly_interp_drops_zero_coefficients :
    lagrange_polynomial Field64.MODULUS ([0, 1, 2].zip [1, 2, 5]) = [1, 0, 1] ∧
      poly_interp Field64.MODULUS [0, 1, 2] [1, 2, 5] = [1, 1] ∧
      poly_eval Field64.MODULUS
        (poly_interp Field64.MODULUS [0, 1, 2] [1, 2, 5]) 2 = some 3 ∧
      poly_eval Field64.MODULUS
        (poly_interp Field64.MODULUS [0, 1, 2] [1, 2, 5]) 2 ≠ some 5 := by decide

theorem prime_dvd_of_prodPow (q : ℕ) (hq : q.Prime) :
    ∀ qs : List (ℕ × ℕ), (∀ r ∈ qs, (r.1).Prime) →
      q ∣ (qs.map fun r => r.1 ^ r.2).prod → ∃ r ∈ qs, q = r.1 := by
  intro qs
  induction qs with
  | nil =>
    intro _ hdvd
    simp only [List.map_nil, List.prod_nil] at hdvd
    exact absurd (Nat.dvd_one.mp hdvd) hq.ne_one
  | cons r rs ih =>
    intro hall hdvd
    rw [List.map_cons, List.prod_cons] at hdvd
    rcases (Nat.Prime.dvd_mul hq).mp hdvd with h | h
    · have h1 : q ∣ r.1 := hq.dvd_of_dvd_pow h
      have h2 := (Nat.prime_dvd_prime_iff_eq hq (hall r (by simp))).mp h1
      exact ⟨r, by simp, h2⟩
    · obtain ⟨s, hs, he⟩ := ih (fun t ht => hall t (by simp [ht])) h
      exact ⟨s, by simp [hs], he⟩

/-- Pratt / Lucas certificate checker: `a` has order `p - 1` modulo `p`,
witnessed through the completely factored `p - 1`. -/
theorem prime_of_cert (p a : ℕ) (qs : List (ℕ × ℕ)) (hp : 1 < p)
    (hfac : (qs.map fun r => r.1 ^ r.2).prod = p - 1)
    (hq : ∀ r ∈ qs, (r.1).Prime)
    (ha : powMod p a (p - 1) = 1)
    (hd : ∀ r ∈ qs, powMod p a ((p - 1) / r.1) ≠ 1) : p.Prime := by
  have hp0 : 0 < p := by omega
  haveI : Fact (1 < p) := ⟨hp⟩
  have hcast : ∀ n : ℕ, ((a : ZMod p)) ^ n = ((powMod p a n : ℕ) : ZMod p) := by
    intro n
    rw [powMod_eq p a n hp0, ZMod.natCast_mod, Nat.cast_pow]
  apply lucas_primality p (a : ZMod p)
  · rw [hcast, ha, Nat.cast_one]
  · intro q hqp hqd
    rw [← hfac] at hqd
    obtain ⟨r, hr, rfl⟩ := prime_dvd_of_prodPow q hqp qs hq hqd
    intro hone
    apply hd r hr
    rw [hcast] at hone
    have hlt : powMod p a ((p - 1) / r.1) < p := by
      rw [powMod_eq p a _ hp0]
      exact Nat.mod_lt _ hp0
    have hval := congrArg ZMod.val hone
    rwa [ZMod.val_natCast_of_lt hlt, ZMod.val_one p] at hval

theorem prime_125714447 : Nat.Prime 125714447 :=
  prime_of_cert 125714447 5 [(2,1),(11,1),(13,1),(41,1),(71,1),(151,1)]
    (by norm_num) (by decide)
    (by intro r hr; fin_cases hr <;> norm_num)
    (by decide) (by decide)

theorem prime_2773320623 : Nat.Prime 2773320623 :=
  prime_of_cert 2773320623 5 [(2,1),(2437,1),(569003,1)]
    (by norm_num) (by decide)
    (by intro r hr; fin_cases hr <;> norm_num)
    (by decide) (by decide)

theorem prime_72106336199 : Nat.Prime 72106336199 :=
  prime_of_cert 72106336199 7 [(2,1),(13,1),(2773320623,1)]
    (by norm_num) (by decide)
    (by intro r hr; fin_cases hr <;> first | exact prime_2773320623 | norm_num)
    (by decide) (by decide)

theorem prime_440340496364689 : Nat.Prime 440340496364689 :=
  prime_of_cert 440340496364689 11 [(2,4),(3,1),(72973,1),(125714447,1)]
    (by norm_num) (by decide)
    (by intro r hr; fin_cases hr <;> first | exact prime_125714447 | norm_num)
    (by decide) (by decide)

theorem prime_1919519569386763 : Nat.Prime 1919519569386763 :=
  prime_of_cert 1919519569386763 2 [(2,1),(3,1),(7,1),(19,1),(47,2),(127,1),(8574133,1)]
    (by norm_num) (by decide)
    (by intro r hr; fin_cases hr <;> norm_num)
    (by decide) (by decide)

theorem prime_31757755568855353 : Nat.Prime 31757755568855353 :=
  prime_of_cert 31757755568855353 10 [(2,3),(3,1),(31,1),(107,1),(223,1),(4153,1),(430751,1)]
    (by norm_num) (by decide)
    (by intro r hr; fin_cases hr <;> norm_num)
    (by decide) (by decide)

theorem prime_q117 : Nat.Prime 75445702479781427272750846543864801 :=
  prime_of_cert 75445702479781427272750846543864801 7
    [(2,5),(3,2),(5,2),(75707,1),(72106336199,1),(1919519569386763,1)]
    (by norm_num) (by decide)
    (by intro r hr; fin_cases hr <;>
      first | exact prime_72106336199 | exact prime_1919519569386763 | norm_num)
    (by decide) (by decide)

theorem prime_q236 :
    Nat.Prime
      74058212732561358302231226437062788676166966415465897661863160754340907 :=
  prime_of_cert
    74058212732561358302231226437062788676166966415465897661863160754340907 2
    [(2,1),(3,1),(353,1),(57467,1),(132049,1),(1923133,1),
      (31757755568855353,1),(75445702479781427272750846543864801,1)]
    (by norm_num) (by decide)
    (by intro r hr; fin_cases hr <;>
      first | exact prime_31757755568855353 | exact prime_q117 | norm_num)
    (by decide) (by decide)

theorem Field2_prime : Nat.Prime Field2.MODULUS := by norm_num [Field2.MODULUS]

theorem Field64_prime : Nat.Prime Field64.MODULUS :=
  prime_of_cert Field64.MODULUS 7 [(2,32),(3,1),(5,1),(17,1),(257,1),(65537,1)]
    (by norm_num [Field64.MODULUS]) (by decide)
    (by intro r hr; fin_cases hr <;> norm_num)
    (by decide) (by decide)

theorem Field96_prime : Nat.Prime Field96.MODULUS :=
  prime_of_cert Field96.MODULUS 3 [(2,64),(5,1),(11,1),(29,1),(83,1),(32443,1)]
    (by norm_num [Field96.MODULUS]) (by decide)
    (by intro r hr; fin_cases hr <;> norm_num)
    (by decide) (by decide)

theorem Field128_prime : Nat.Prime Field128.MODULUS :=
  prime_of_cert Field128.MODULUS 7 [(2,66),(3,1),(3491,1),(440340496364689,1)]
    (by norm_num [Field128.MODULUS]) (by decide)
    (by intro r hr; fin_cases hr <;> first | exact prime_440340496364689 | norm_num)
    (by decide) (by decide)

theorem Field255_prime : Nat.Prime Field255.MODULUS :=
  prime_of_cert Field255.MODULUS 2
    [(2,2),(3,1),(65147,1),
      (74058212732561358302231226437062788676166966415465897661863160754340907,1)]
    (by norm_num [Field255.MODULUS]) (by decide)
    (by intro r hr; fin_cases hr <;> first | exact prime_q236 | norm_num)
    (by decide) (by decide)

theorem MODULUS_prime (F : ConcreteField) : (MODULUS F).Prime := by
  cases F
  · exact Field2_prime
  · exact Field64_prime
  · exact Field96_prime
  · exact Field128_prime
  · exact Field255_prime

/-- C7: for each FFT-friendly field, `gen()` equals
`base ^ ((MODULUS - 1) / GEN_ORDER)` for its fixed base (7, 3, 7),
`gen() ^ GEN_ORDER = 1`, `gen() ^ (GEN_ORDER / 2) ≠ 1`, `GEN_ORDER` divides
`MODULUS - 1`, and `GEN_ORDER` is the largest power of two dividing
`MODULUS - 1`. -/
theorem gen_spec :
    (Field64.gen = fpow Field64.MODULUS 7 ((Field64.MODULUS - 1) / Field64.GEN_ORDER) ∧
      fpow Field64.MODULUS Field64.gen Field64.GEN_ORDER = 1 ∧
      fpow Field64.MODULUS Field64.gen (Field64.GEN_ORDER / 2) ≠ 1 ∧
      Field64.GEN_ORDER ∣ Field64.MODULUS - 1 ∧
      ∀ k, 2 ^ k ∣ Field64.MODULUS - 1 → 2 ^ k ∣ Field64.GEN_ORDER) ∧
    (Field96.gen = fpow Field96.MODULUS 3 ((Field96.MODULUS - 1) / Field96.GEN_ORDER) ∧
      fpow Field96.MODULUS Field96.gen Field96.GEN_ORDER = 1 ∧
      fpow Field96.MODULUS Field96.gen (Field96.GEN_ORDER / 2) ≠ 1 ∧
      Field96.GEN_ORDER ∣ Field96.MODULUS - 1 ∧
      ∀ k, 2 ^ k ∣ Field96.MODULUS - 1 → 2 ^ k ∣ Field96.GEN_ORDER) ∧
    (Field128.gen = fpow Field128.MODULUS 7 ((Field128.MODULUS - 1) / Field128.GEN_ORDER) ∧
      fpow Field128.MODULUS Field128.gen Field128.GEN_ORDER = 1 ∧
      fpow Field128.MODULUS Field128.gen (Field128.GEN_ORDER / 2) ≠ 1 ∧
      Field128.GEN_ORDER ∣ Field128.MODULUS - 1 ∧
      ∀ k, 2 ^ k ∣ Field128.MODULUS - 1 → 2 ^ k ∣ Field128.GEN_ORDER) := by
  refine ⟨⟨by decide, by decide, by decide, ⟨4294967295, by decide⟩, ?_⟩,
    ⟨by decide, by decide, by decide, ⟨4294966555, by decide⟩, ?_⟩,
    ⟨by decide, by decide, by decide, ⟨4611686018427387897, by decide⟩, ?_⟩⟩
  · intro k hk
    by_cases hle : k ≤ 32
    · exact pow_dvd_pow 2 hle
    · exfalso
      have h33 : (2:ℕ) ^ 33 ∣ Field64.MODULUS - 1 :=
        dvd_trans (pow_dvd_pow 2 (by omega)) hk
      have hmod := Nat.dvd_iff_mod_eq_zero.mp h33
      have hne : (Field64.MODULUS - 1) % 2 ^ 33 ≠ 0 := by decide
      exact hne hmod
  · intro k hk
    by_cases hle : k ≤ 64
    · exact pow_dvd_pow 2 hle
    · exfalso
      have h65 : (2:ℕ) ^ 65 ∣ Field96.MODULUS - 1 :=
        dvd_trans (pow_dvd_pow 2 (by omega)) hk
      have hmod := Nat.dvd_iff_mod_eq_zero.mp h65
      have hne : (Field96.MODULUS - 1) % 2 ^ 65 ≠ 0 := by decide
      exact hne hmod
  · intro k hk
    by_cases hle : k ≤ 66
    · exact pow_dvd_pow 2 hle
    · exfalso
      have h67 : (2:ℕ) ^ 67 ∣ Field128.MODULUS - 1 :=
        dvd_trans (pow_dvd_pow 2 (by omega)) hk
      have hmod := Nat.dvd_iff_mod_eq_zero.mp h67
      have hne : (Field128.MODULUS - 1) % 2 ^ 67 ≠ 0 := by decide
      exact hne hmod

/-- C7 witness: the largest-power-of-two clause of `gen_spec` instantiated at
`k = 32` for `Field64`, with its divisibility hypothesis discharged. -/
theorem gen_spec_witness :
    (2:ℕ) ^ 32 ∣ Field64.MODULUS - 1 ∧ (2:ℕ) ^ 32 ∣ Field64.GEN_ORDER :=
  ⟨⟨4294967295, by decide⟩, gen_spec.1.2.2.2.2 32 ⟨4294967295, by decide⟩⟩

theorem fadd_assoc (p a b c : ℕ) :
    fadd p (fadd p a b) c = fadd p a (fadd p b c) := by
  unfold fadd
  rw [Nat.mod_add_mod, Nat.add_mod_mod, Nat.add_assoc]

theorem fmul_fadd_distrib (p a b c : ℕ) :
    fmul p a (fadd p b c) = fadd p (fmul p a b) (fmul p a c) := by
  unfold fadd fmul
  rw [Nat.mul_mod, Nat.mod_mod, ← Nat.mul_mod, Nat.mul_add,
    Nat.mod_add_mod, Nat.add_mod_mod]

theorem fadd_fneg (p a : ℕ) (hp : 0 < p) (ha : a < p) :
    fadd p a (fneg p a) = 0 := by
  unfold fadd fneg
  rcases Nat.eq_zero_or_pos a with rfl | hapos
  · simp [Nat.mod_self]
  · rw [Nat.mod_eq_of_lt (by omega : p - a < p)]
    have hsum : a + (p - a) = p := by omega
    rw [hsum, Nat.mod_self]

theorem fpow_zero_eq_one (p a : ℕ) (hp : 1 < p) : fpow p a 0 = 1 := by
  show powModF 1 p a 0 = 1
  rw [show powModF 1 p a 0 = 1 % p from rfl, Nat.mod_eq_of_lt hp]

theorem fmul_finv (p a : ℕ) (hp : p.Prime) (ha : a < p) (h0 : a ≠ 0) :
    fmul p a (finv p a) = 1 := by
  have hp2 := hp.two_le
  unfold fmul finv
  rw [powMod_eq p a (p - 2) (by omega), Nat.mul_mod, Nat.mod_mod, ← Nat.mul_mod]
  have hpow : a * a ^ (p - 2) = a ^ (p - 1) := by
    rw [← pow_succ']
    congr 1
    omega
  rw [hpow]
  have hco : Nat.Coprime a p := by
    have hnd : ¬ p ∣ a := by
      intro hdvd
      have := Nat.le_of_dvd (Nat.pos_of_ne_zero h0) hdvd
      omega
    exact ((Nat.Prime.coprime_iff_not_dvd hp).mpr hnd).symm
  have heuler := Nat.ModEq.pow_totient hco
  rw [Nat.totient_prime hp] at heuler
  have h2 : a ^ (p - 1) % p = 1 % p := heuler
  rwa [Nat.mod_eq_of_lt (by omega : 1 < p)] at h2

/-- C9: for every concrete field class and all canonical elements `a, b, c`,
addition is associative, multiplication distributes over addition,
`a + (-a) = 0`, `a ** 0 = 1`, and every nonzero `a` satisfies
`a * a.inv() = 1`. -/
theorem field_axioms (F : ConcreteField) (a b c : ℕ)
    (ha : a < MODULUS F) (hb : b < MODULUS F) (hc : c < MODULUS F) :
    fadd (MODULUS F) (fadd (MODULUS F) a b) c
        = fadd (MODULUS F) a (fadd (MODULUS F) b c) ∧
      fmul (MODULUS F) a (fadd (MODULUS F) b c)
        = fadd (MODULUS F) (fmul (MODULUS F) a b) (fmul (MODULUS F) a c) ∧
      fadd (MODULUS F) a (fneg (MODULUS F) a) = 0 ∧
      fpow (MODULUS F) a 0 = 1 ∧
      (a ≠ 0 → fmul (MODULUS F) a (finv (MODULUS F) a) = 1) := by
  have h2 := MODULUS_two_le F
  exact ⟨fadd_assoc _ _ _ _, fmul_fadd_distrib _ _ _ _,
    fadd_fneg _ _ (by omega) ha, fpow_zero_eq_one _ _ (by omega),
    fun h0 => fmul_finv _ _ (MODULUS_prime F) ha h0⟩

/-- C9 witness: `Field64` with `a = 2`, `b = 3`, `c = 5`. -/
theorem field_axioms_witness :
    (2 < MODULUS ConcreteField.F64 ∧ 3 < MODULUS ConcreteField.F64 ∧
      5 < MODULUS ConcreteField.F64) ∧
      (fadd (MODULUS ConcreteField.F64) (fadd (MODULUS ConcreteField.F64) 2 3) 5
          = fadd (MODULUS ConcreteField.F64) 2 (fadd (MODULUS ConcreteField.F64) 3 5) ∧
        fmul (MODULUS ConcreteField.F64) 2 (fadd (MODULUS ConcreteField.F64) 3 5)
          = fadd (MODULUS ConcreteField.F64) (fmul (MODULUS ConcreteField.F64) 2 3)
              (fmul (MODULUS ConcreteField.F64) 2 5) ∧
        fadd (MODULUS ConcreteField.F64) 2 (fneg (MODULUS ConcreteField.F64) 2) = 0 ∧
        fpow (MODULUS ConcreteField.F64) 2 0 = 1 ∧
        ((2:ℕ) ≠ 0 → fmul (MODULUS ConcreteField.F64) 2
            (finv (MODULUS ConcreteField.F64) 2) = 1)) :=
  ⟨⟨by decide, by decide, by decide⟩,
    field_axioms ConcreteField.F64 2 3 5 (by decide) (by decide) (by decide)⟩
